import Mathlib

set_option maxHeartbeats 1000000
set_option maxRecDepth 4000

/-!
Verification of the edit-protocol core of the web coding agent.

JavaScript strings are embedded as lists of characters (`Str`).  Each
definition below is a direct translation of a function of the repository:
`MultiFileManager` (src/lib/multiFileManager.ts), the Monaco edit applier
and the diff / search-replace decoders (src/utils/storage.ts),
`AIPromptBuilder.diffToPendingEdits` (src/lib/aiPromptBuilder.ts),
`CodeParser.findBlockEnd` (src/lib/codeParser.ts) and the pending-edit
handlers of the page component (src/app/page.tsx).
-/

namespace WebAgent

/-- JavaScript strings modelled as lists of characters. -/
abbrev Str := List Char

/-- Whitespace characters removed by `String.prototype.trim` (ASCII part). -/
def isWs (c : Char) : Bool := c = ' ' || c = '\t' || c = '\n' || c = '\r'

/-- `s.trim()`: drop surrounding whitespace of the whole string. -/
def jsTrim (s : Str) : Str := ((s.dropWhile isWs).reverse.dropWhile isWs).reverse

/-- `s.split('\n')`.  Never returns the empty list. -/
def splitLines : Str → List Str
  | [] => [[]]
  | c :: cs =>
    if c = '\n' then [] :: splitLines cs
    else
      match splitLines cs with
      | [] => [[c]]
      | l :: ls => (c :: l) :: ls

/-- `lines.join('\n')`. -/
def joinLines : List Str → Str
  | [] => []
  | [l] => l
  | l :: ls => l ++ '\n' :: joinLines ls

/-- Decimal rendering of an integer, as in JS template interpolation. -/
def intStr (i : Int) : Str := (toString i).data

/-- Decimal rendering of a natural number. -/
def natStr (n : Nat) : Str := (toString n).data

/-- `Array.prototype.splice(start, deleteCount, ...items)` on a list,
with the ECMAScript clamping of a negative start (counts from the end)
and of a negative or oversized delete count. -/
def jsSplice (l : List α) (start deleteCount : Int) (items : List α) : List α :=
  let len : Int := l.length
  let s : Int := if start < 0 then max (len + start) 0 else min start len
  let d : Int := min (max deleteCount 0) (len - s)
  l.take s.toNat ++ items ++ l.drop (s + d).toNat

/-- Stable insertion step for a descending sort keyed by an integer:
the new element goes in front of the first element whose key is not
larger, so elements with equal keys keep their original order.  This is
the behaviour of the stable `Array.prototype.sort` with the comparator
`(a, b) => b.startLine - a.startLine` used throughout the repository. -/
def insertDescBy (key : α → Int) (x : α) : List α → List α
  | [] => [x]
  | y :: ys => if key x < key y then y :: insertDescBy key x ys else x :: y :: ys

/-- Stable sort by an integer key, descending. -/
def sortDescBy (key : α → Int) : List α → List α
  | [] => []
  | x :: xs => insertDescBy key x (sortDescBy key xs)

/-! ## MultiFileManager (src/lib/multiFileManager.ts) -/

/-- One element of `FileEdit['edits']`. -/
structure MFEdit where
  id : Str
  startLine : Int
  endLine : Int
  oldCode : Str
  newCode : Str
  description : Str
deriving DecidableEq

/-- `FileEdit`. -/
structure FileEdit where
  filePath : Str
  originalContent : Str
  modifiedContent : Str
  edits : List MFEdit
deriving DecidableEq

/-- `MultiFileChange`. -/
structure MultiFileChange where
  files : List FileEdit
  summary : Str
  dependencies : List Str
deriving DecidableEq

/-- A `{start, end}` line-range pair (`end` is a Lean keyword, renamed `stop`). -/
structure LineRange where
  start : Int
  stop : Int
deriving DecidableEq

/-- `MultiFileManager.rangesOverlap`, clause for clause. -/
def rangesOverlap (range1 range2 : LineRange) : Bool :=
  (decide (range1.start ≥ range2.start) && decide (range1.start ≤ range2.stop)) ||
  (decide (range1.stop ≥ range2.start) && decide (range1.stop ≤ range2.stop)) ||
  (decide (range2.start ≥ range1.start) && decide (range2.start ≤ range1.stop)) ||
  (decide (range2.stop ≥ range1.start) && decide (range2.stop ≤ range1.stop))

/-- Ordered pairs `(l[i], l[j])` with `i < j`, in the order the nested
`for` loops of `validateChanges` visit them. -/
def ordPairs : List α → List (α × α)
  | [] => []
  | x :: xs => xs.map (fun y => (x, y)) ++ ordPairs xs

/-- The template string "Conflicting edits in (filePath): lines
(r1.start)-(r1.end) and (r2.start)-(r2.end)" of `validateChanges`. -/
def conflictMsg (filePath : Str) (range1 range2 : LineRange) : Str :=
  ("Conflicting edits in ").data ++ filePath ++ (": lines ").data ++
    intStr range1.start ++ '-' :: intStr range1.stop ++ (" and ").data ++
    intStr range2.start ++ '-' :: intStr range2.stop

/-- The line range of an edit as collected by `validateChanges`. -/
def editRange (e : MFEdit) : LineRange := ⟨e.startLine, e.endLine⟩

/-- The errors one file contributes in `MultiFileManager.validateChanges`:
one message per overlapping pair of ranges, in loop order. -/
def fileConflicts (fileEdit : FileEdit) : List Str :=
  let lineRanges := fileEdit.edits.map editRange
  (ordPairs lineRanges).filterMap fun p =>
    if rangesOverlap p.1 p.2 then some (conflictMsg fileEdit.filePath p.1 p.2) else none

/-- Result record of `validateChanges`. -/
structure ValidationResult where
  valid : Bool
  errors : List Str
deriving DecidableEq

/-- `MultiFileManager.validateChanges`. -/
def validateChanges (changes : MultiFileChange) : ValidationResult :=
  let errors := (changes.files.map fileConflicts).flatten
  { valid := errors.length == 0, errors := errors }

/-- `MultiFileManager.applyEdits`: split, sort descending by start line,
splice each edit in turn, join. -/
def applyEdits (originalContent : Str) (edits : List MFEdit) : Str :=
  let lines := splitLines originalContent
  let sortedEdits := sortDescBy (fun e => e.startLine) edits
  joinLines (sortedEdits.foldl
    (fun ls e =>
      jsSplice ls (e.startLine - 1) (e.endLine - e.startLine + 1) (splitLines e.newCode))
    lines)

/-! ## CodeParser.findBlockEnd (src/lib/codeParser.ts) -/

/-- Number of occurrences of a character in a line
(`(line.match(/x/g) || []).length`). -/
def countChar (c : Char) (l : Str) : Nat := l.countP (fun d => d = c)

/-- Net brace balance a line contributes. -/
def netBraces (l : Str) : Int := (countChar '\x7b' l : Int) - (countChar '\x7d' l : Int)

/-- Whether the line contains at least one opening brace. -/
def hasOpenBrace (l : Str) : Bool := decide (0 < countChar '\x7b' l)

/-- The scan loop of `CodeParser.findBlockEnd`: per line add the brace
balance, remember whether an opening brace was ever seen, and stop at the
first line where the running count is zero after that.  The loop runs
`i` from the start index up to the line count, so fuel equal to the line
count always suffices; structural recursion on fuel keeps the function
kernel-reducible. -/
def findBlockEndAux (lines : List Str) : Nat → Nat → Int → Bool → Nat
  | 0, _, _, _ => lines.length
  | Nat.succ fuel, i, bracketCount, foundStart =>
    if i < lines.length then
      let line := lines.getD i []
      let count := bracketCount + netBraces line
      let found := foundStart || hasOpenBrace line
      if found && count == 0 then i + 1
      else findBlockEndAux lines fuel (i + 1) count found
    else lines.length

/-- `CodeParser.findBlockEnd`. -/
def findBlockEnd (lines : List Str) (startIndex : Nat) : Nat :=
  findBlockEndAux lines lines.length startIndex 0 false

/-! ## The Monaco text model (external collaborator)

The editor's buffer is modelled as its list of lines.  `Range` positions
are 1-indexed and the end column is exclusive, as in Monaco. -/

/-- Line with the given 1-indexed number. -/
def lineAt (lines : List Str) (n : Int) : Str := lines.getD (n - 1).toNat []

/-- `model.getLineMaxColumn(line)`: line length plus one. -/
def getLineMaxColumn (lines : List Str) (lineNumber : Int) : Int :=
  ((lineAt lines lineNumber).length : Int) + 1

/-- Apply a function to the head of a list, if any. -/
def modifyHeadLine (f : Str → Str) : List Str → List Str
  | [] => []
  | x :: xs => f x :: xs

/-- Apply a function to the last element of a list, if any. -/
def modifyLastLine (f : Str → Str) : List Str → List Str
  | [] => []
  | [x] => [f x]
  | x :: xs => x :: modifyLastLine f xs

/-- `model.getValueInRange(new Range(sl, sc, el, ec))`. -/
def getValueInRange (lines : List Str) (sl sc el ec : Int) : Str :=
  let segment := (lines.drop (sl - 1).toNat).take (el - sl + 1).toNat
  joinLines (modifyHeadLine (fun l => l.drop (sc - 1).toNat)
    (modifyLastLine (fun l => l.take (ec - 1).toNat) segment))

/-- `editor.executeEdits` with a single replacement range: the text
before the range, the inserted text, and the text after it are glued and
re-split into lines. -/
def replaceRange (lines : List Str) (sl sc el ec : Int) (text : Str) : List Str :=
  lines.take (sl - 1).toNat ++
    splitLines ((lineAt lines sl).take (sc - 1).toNat ++ text ++
      (lineAt lines el).drop (ec - 1).toNat) ++
    lines.drop el.toNat

/-! ## storage.ts: TextEdit, applyEdit, applyEdits -/

/-- `TextEdit` (src/types/editor.types.ts). -/
structure TextEdit where
  startLine : Int
  endLine : Int
  startColumn : Option Int
  endColumn : Option Int
  oldText : Str
  newText : Str
  context : Option Str
deriving DecidableEq

/-- JS `value || dflt` for an optional numeric field: `undefined` and `0`
are falsy. -/
def jsOrCol (o : Option Int) (dflt : Int) : Int :=
  match o with
  | none => dflt
  | some c => if c = 0 then dflt else c

/-- The text `applyEdit` reads back from the edit's declared range. -/
def extractedText (lines : List Str) (edit : TextEdit) : Str :=
  getValueInRange lines edit.startLine (jsOrCol edit.startColumn 1)
    edit.endLine (jsOrCol edit.endColumn (getLineMaxColumn lines edit.endLine))

/-- `applyEdit` (src/utils/storage.ts): verify the old text, when present
and non-empty, by whole-string trim comparison; on mismatch report
failure and leave the buffer unchanged, otherwise replace the range. -/
def applyEdit (lines : List Str) (edit : TextEdit) : List Str × Bool :=
  if edit.oldText ≠ [] ∧ jsTrim (extractedText lines edit) ≠ jsTrim edit.oldText then
    (lines, false)
  else
    (replaceRange lines edit.startLine (jsOrCol edit.startColumn 1) edit.endLine
      (jsOrCol edit.endColumn (getLineMaxColumn lines edit.endLine)) edit.newText, true)

/-- `applyEdits` (src/utils/storage.ts): sort descending by start line,
apply each edit in turn, tally successes and failures. -/
def applyEditsMonaco (lines : List Str) (edits : List TextEdit) : List Str × Nat × Nat :=
  let sortedEdits := sortDescBy (fun e => e.startLine) edits
  sortedEdits.foldl
    (fun st e =>
      let r := applyEdit st.1 e
      if r.2 then (r.1, st.2.1 + 1, st.2.2) else (r.1, st.2.1, st.2.2 + 1))
    (lines, 0, 0)

/-! ## parseUnifiedDiff (src/utils/storage.ts)

The hunk header regex `@@ -(\d+)(?:,(\d+))? \+(\d+)(?:,(\d+))? @@` is
modelled by a maximal-munch scanner.  Because every digit run is followed
in the pattern by a non-digit literal, maximal munch coincides with the
backtracking behaviour of the regex engine. -/

/-- Strip a literal from the front of a string, if it is a prefix. -/
def dropLit : Str → Str → Option Str
  | [], s => some s
  | _ :: _, [] => none
  | p :: ps, c :: cs => if p = c then dropLit ps cs else none

/-- Greedy run of decimal digits and the remaining text. -/
def takeDigits (s : Str) : Str × Str := (s.takeWhile Char.isDigit, s.dropWhile Char.isDigit)

/-- Value of a digit run. -/
def digitsToNat (ds : Str) : Nat := ds.foldl (fun n c => n * 10 + (c.toNat - '0'.toNat)) 0

/-- `(\d+)(?:,(\d+))?`: a number and an optional comma-number group. -/
def numPair (s : Str) : Option (Nat × Option Nat × Str) :=
  let p := takeDigits s
  if p.1 = [] then none
  else
    match p.2 with
    | ',' :: r2 =>
      let q := takeDigits r2
      if q.1 = [] then some (digitsToNat p.1, none, p.2)
      else some (digitsToNat p.1, some (digitsToNat q.1), q.2)
    | _ => some (digitsToNat p.1, none, p.2)

/-- The four captures of one hunk header. -/
structure HunkCaps where
  oldStart : Nat
  oldCount : Option Nat
  newStart : Nat
  newCount : Option Nat
deriving DecidableEq

/-- Match the hunk header pattern at the start of the string. -/
def matchHunkAt (s : Str) : Option (HunkCaps × Str) := do
  let r1 ← dropLit ("@@ -").data s
  let (os, oc, r2) ← numPair r1
  let r3 ← dropLit (" +").data r2
  let (ns, nc, r4) ← numPair r3
  let r5 ← dropLit (" @@").data r4
  some (⟨os, oc, ns, nc⟩, r5)

/-- Leftmost hunk-header match: the text before it, its captures, and the
text after it. -/
def findHunk : Str → Option (Str × HunkCaps × Str)
  | [] => none
  | c :: cs =>
    match matchHunkAt (c :: cs) with
    | some (caps, rest) => some ([], caps, rest)
    | none =>
      match findHunk cs with
      | some (p, caps, r) => some (c :: p, caps, r)
      | none => none

/-- Successive hunk matches, each paired with the text segment that
follows it (`diffText.split(hunkRegex)` walked in steps of five).  Fuel
bounds the recursion; every match consumes at least the nine characters
of its literal parts, so fuel equal to the remaining length is ample. -/
def scanHunksAux : Nat → HunkCaps → Str → List (HunkCaps × Str)
  | 0, caps, rest => [(caps, rest)]
  | Nat.succ fuel, caps, rest =>
    match findHunk rest with
    | none => [(caps, rest)]
    | some (pre, caps2, rest2) => (caps, pre) :: scanHunksAux fuel caps2 rest2

/-- All hunk matches of a diff text with their trailing segments. -/
def scanHunks (s : Str) : List (HunkCaps × Str) :=
  match findHunk s with
  | none => []
  | some (_, caps, rest) => scanHunksAux rest.length caps rest

/-- Lines of a segment that carry the given prefix character, with the
prefix removed. -/
def prefixedLines (mark : Char) (seg : Str) : List Str :=
  (splitLines seg).filterMap fun l =>
    match l with
    | c :: r => if c = mark then some r else none
    | [] => none

/-- `parseUnifiedDiff` (src/utils/storage.ts).  The `content` argument is
accepted and ignored, as in the source. -/
def parseUnifiedDiff (diffText : Str) (content : Str) : List TextEdit :=
  let _ := content
  (scanHunks diffText).filterMap fun hd =>
    let oldStart : Int := hd.1.oldStart
    let oldCount : Int := (hd.1.oldCount.getD 1 : Nat)
    let oldLines := prefixedLines '-' hd.2
    let newLines := prefixedLines '+' hd.2
    if oldLines.length > 0 ∨ newLines.length > 0 then
      some { startLine := oldStart, endLine := oldStart + oldCount - 1,
             startColumn := none, endColumn := none,
             oldText := joinLines oldLines, newText := joinLines newLines,
             context := none }
    else none

/-! ## parseSearchReplace (src/utils/storage.ts)

The global regex
`<<<<<<< SEARCH\n([\s\S]*?)\n=======\n([\s\S]*?)\n>>>>>>> REPLACE` is
modelled by literal substring search.  Both capture groups are lazy, so
each group extends to the first occurrence of the following delimiter;
and because delimiter occurrences after a later match start are a subset
of those after an earlier one, a failed start position can never be
rescued by a later one, so no backtracking over start positions or
delimiter choices is needed. -/

/-- First index at which the pattern occurs as a substring. -/
def findSub (pat : Str) : Str → Option Nat
  | [] => if pat = [] then some 0 else none
  | c :: cs =>
    if (dropLit pat (c :: cs)).isSome then some 0
    else (findSub pat cs).map (· + 1)

/-- The `<<<<<<< SEARCH` opening delimiter, with its newline. -/
def srHeader : Str := ("<<<<<<< SEARCH\n").data

/-- The `=======` middle delimiter, with surrounding newlines. -/
def srDelim : Str := ("\n=======\n").data

/-- The `>>>>>>> REPLACE` closing delimiter, with its leading newline. -/
def srFooter : Str := ("\n>>>>>>> REPLACE").data

/-- Match the two lazy groups in the text following a header. -/
def srBody (s : Str) : Option (Str × Str × Str) :=
  match findSub srDelim s with
  | none => none
  | some i =>
    let afterDelim := s.drop (i + srDelim.length)
    match findSub srFooter afterDelim with
    | none => none
    | some j => some (s.take i, afterDelim.take j, afterDelim.drop (j + srFooter.length))

/-- Leftmost full match of the search/replace pattern: the search group,
the replace group, and the rest of the text after the match. -/
def srNext (s : Str) : Option (Str × Str × Str) :=
  match findSub srHeader s with
  | none => none
  | some i => srBody (s.drop (i + srHeader.length))

/-- All matches of the global search/replace pattern, in order.  Fuel
bounds the recursion; each match consumes at least the header. -/
def srBlocksAux : Nat → Str → List (Str × Str)
  | 0, _ => []
  | Nat.succ fuel, s =>
    match srNext s with
    | none => []
    | some (g1, g2, rest) => (g1, g2) :: srBlocksAux fuel rest

/-- The `(search, replace)` pairs of all blocks of the text. -/
def srBlocks (s : Str) : List (Str × Str) := srBlocksAux s.length s

/-- The inner check of the window scan: position `i` matches when every
search line equals the corresponding content line after trimming and the
window does not run off the end. -/
def windowOk (lines searchLines : List Str) (i : Nat) : Bool :=
  (List.range searchLines.length).all fun j =>
    decide (i + j < lines.length) &&
      decide (jsTrim (lines.getD (i + j) []) = jsTrim (searchLines.getD j []))

/-- The `for (let i = 0; ...)` scan: first matching window position.
The loop index is bounded by the line count, so fuel equal to the line
count always suffices; structural recursion on fuel keeps the function
kernel-reducible. -/
def findStartLineAux (lines searchLines : List Str) : Nat → Nat → Option Nat
  | 0, _ => none
  | Nat.succ fuel, i =>
    if i < lines.length then
      if windowOk lines searchLines i then some i
      else findStartLineAux lines searchLines fuel (i + 1)
    else none

/-- First matching window position, scanning from the top. -/
def findStartLine (lines searchLines : List Str) : Option Nat :=
  findStartLineAux lines searchLines lines.length 0

/-- `parseSearchReplace` (src/utils/storage.ts).  The source binds
`searchText = match[1].trim()`, `replaceText = match[2].trim()` and
`searchLines = searchText.split('\n')`; these are inlined here. -/
def parseSearchReplace (text : Str) (content : Str) : List TextEdit :=
  (srBlocks text).filterMap fun b =>
    match findStartLine (splitLines content) (splitLines (jsTrim b.1)) with
    | some i =>
      some { startLine := (i : Int) + 1,
             endLine := ((i : Int) + 1) + ((splitLines (jsTrim b.1)).length : Int) - 1,
             startColumn := none, endColumn := none,
             oldText := jsTrim b.1, newText := jsTrim b.2, context := none }
    | none => none

/-! ## AIPromptBuilder.diffToPendingEdits (src/lib/aiPromptBuilder.ts) -/

/-- `DiffHunk`. -/
structure DiffHunk where
  oldStart : Int
  oldLines : Int
  newStart : Int
  newLines : Int
  lines : List Str
deriving DecidableEq

/-- `UnifiedDiff`. -/
structure UnifiedDiff where
  fileName : Str
  hunks : List DiffHunk
  description : Str
deriving DecidableEq

/-- The object literal `diffToPendingEdits` builds per hunk. -/
structure PendingEdit where
  id : Str
  fileName : Str
  description : Str
  startLine : Int
  endLine : Int
  startColumn : Int
  endColumn : Int
  oldCode : Str
  newCode : Str
deriving DecidableEq

/-- `AIPromptBuilder.diffToPendingEdits`.  The impure `Date.now()` in the
generated id is passed in as the `now` argument. -/
def diffToPendingEdits (now : Nat) (diffs : List UnifiedDiff) : List PendingEdit :=
  diffs.flatMap fun diff =>
    diff.hunks.enum.map fun p =>
      { id := diff.fileName ++ '-' :: intStr p.2.oldStart ++ '-' :: natStr now ++
          '-' :: natStr p.1,
        fileName := diff.fileName,
        description := diff.description,
        startLine := p.2.oldStart,
        endLine := p.2.oldStart + p.2.oldLines - 1,
        startColumn := 1,
        endColumn := 999,
        oldCode := joinLines (p.2.lines.filterMap fun l =>
          match l with | c :: r => if c = '-' then some r else none | [] => none),
        newCode := joinLines (p.2.lines.filterMap fun l =>
          match l with | c :: r => if c = '+' then some r else none | [] => none) }

/-! ## The page component's pending-edit registry (src/app/page.tsx) -/

/-- The slice of the page component's state the registry claims concern:
the selected file, the buffer shown in the editor, and the pending
edits. -/
structure PageState where
  selectedFile : Option Str
  fileContent : Str
  pendingEdits : List PendingEdit
deriving DecidableEq

/-- `handleAcceptEdit`: remove the entry with the given id from the
pending list.  No other state is touched. -/
def handleAcceptEdit (editId : Str) (st : PageState) : PageState :=
  { st with pendingEdits := st.pendingEdits.filter fun e => decide (e.id ≠ editId) }

/-- `handleRejectEdit`: remove the entry with the given id from the
pending list. -/
def handleRejectEdit (editId : Str) (st : PageState) : PageState :=
  { st with pendingEdits := st.pendingEdits.filter fun e => decide (e.id ≠ editId) }

/-- `handleFileSelect`: record the new selection, then, when the file
handle is found, load the file's content into the buffer (the read from
disk is passed in as `diskContent`).  When the handle is missing the
function returns after an error toast, with the selection already
updated. -/
def handleFileSelect (path : Str) (handleFound : Bool) (diskContent : Str)
    (st : PageState) : PageState :=
  let st1 := { st with selectedFile := some path }
  if handleFound then { st1 with fileContent := diskContent } else st1

/-! ## Specification-side predicates

These are written from the wording of the specification, to be compared
with the source-derived definitions above. -/

/-- Spec wording for range overlap: "two `[start,end]` ranges overlap if
either one's start falls within the other's inclusive span". -/
abbrev StartWithin (range1 range2 : LineRange) : Prop :=
  (range2.start ≤ range1.start ∧ range1.start ≤ range2.stop) ∨
  (range1.start ≤ range2.start ∧ range2.start ≤ range1.stop)

/-- Spec wording for the search window: "a position where every search
line matches the corresponding original line after trimming surrounding
whitespace", with the window inside the buffer. -/
abbrev WindowMatches (lines searchLines : List Str) (i : Nat) : Prop :=
  ∀ j < searchLines.length,
    i + j < lines.length ∧ jsTrim (lines.getD (i + j) []) = jsTrim (searchLines.getD j [])

/-- Spec wording for old-text verification: "compared to the extracted
text with whitespace-insensitive equality per line". -/
abbrev PerLineTrimEq (a b : Str) : Prop :=
  (splitLines a).length = (splitLines b).length ∧
  ∀ j < (splitLines a).length,
    jsTrim ((splitLines a).getD j []) = jsTrim ((splitLines b).getD j [])

/-- The decoding of one search/replace block as the spec describes it:
the first (lowest) window position matching per trimmed lines determines
`startLine`, and `endLine = startLine + (number of search lines) - 1`;
a block with no matching window yields nothing. -/
def specBlockDecode (lines : List Str) (b : Str × Str) : Option TextEdit :=
  if h : ∃ i, i < lines.length ∧ WindowMatches lines (splitLines (jsTrim b.1)) i then
    some { startLine := (Nat.find h : Int) + 1,
           endLine := ((Nat.find h : Int) + 1) + ((splitLines (jsTrim b.1)).length : Int) - 1,
           startColumn := none, endColumn := none,
           oldText := jsTrim b.1, newText := jsTrim b.2, context := none }
  else none

/-- Encoding of a span replacement as a search/replace block, following
the wire format of the spec. -/
def encodeSR (search replace : Str) : Str :=
  srHeader ++ search ++ srDelim ++ replace ++ srFooter

/-- Net brace balance of the lines from `s` through `i` inclusive. -/
abbrev segNet (lines : List Str) (s i : Nat) : Int :=
  (((lines.drop s).take (i + 1 - s)).map netBraces).sum

/-- Some line of `[s, i]` contains an opening brace. -/
abbrev SeenOpen (lines : List Str) (s i : Nat) : Prop :=
  ∃ k < i + 1, s ≤ k ∧ hasOpenBrace (lines.getD k []) = true

/-- The loop invariant form of the block-end qualification: starting the
scan at `i` with carried count `c` and carried open-brace flag `f`, line
`t` is where the scan stops. -/
abbrev AuxQual (lines : List Str) (i : Nat) (c : Int) (f : Bool) (t : Nat) : Prop :=
  i ≤ t ∧ t < lines.length ∧ c + segNet lines i t = 0 ∧
    (f = true ∨ SeenOpen lines i t)

/-- What the code's scan actually stops at: the count is back at zero at
line `i` and some line of the scanned range contained an opening
brace. -/
abbrev BlockQual (lines : List Str) (s i : Nat) : Prop :=
  s ≤ i ∧ i < lines.length ∧ segNet lines s i = 0 ∧ SeenOpen lines s i

/-- The net count of the lines from `s` through some line of `[s, i]` has
been strictly positive. -/
abbrev WentPositive (lines : List Str) (s i : Nat) : Prop :=
  ∃ k < i + 1, s ≤ k ∧ 0 < segNet lines s k

/-- The claim's wording of the stopping line: the count returns to zero
after having gone positive. -/
abbrev ClaimBlockQual (lines : List Str) (s i : Nat) : Prop :=
  s ≤ i ∧ i < lines.length ∧ segNet lines s i = 0 ∧ WentPositive lines s i

/-- Two multi-file edits agreeing on everything `applyEdits` reads
(identity and applied fields), free to differ in the advisory `oldCode`
and `description`. -/
abbrev AgreesExceptAdvisory (a b : MFEdit) : Prop :=
  a.id = b.id ∧ a.startLine = b.startLine ∧ a.endLine = b.endLine ∧ a.newCode = b.newCode

/-! ## Concrete instances used by the scenario claims -/

/-- A multi-file edit with the given range and new code and empty
advisory fields. -/
def mkMF (s e : Int) (nc : Str) : MFEdit :=
  { id := [], startLine := s, endLine := e, oldCode := [], newCode := nc, description := [] }

/-- Changeset with one file `A` holding edits `[1,3]` and `[2,5]`. -/
def scenOverlap : MultiFileChange :=
  { files := [{ filePath := ("A").data, originalContent := [], modifiedContent := [],
                edits := [mkMF 1 3 [], mkMF 2 5 []] }],
    summary := [], dependencies := [] }

/-- Changeset with one file `A` holding edits `[1,5]` and `[6,10]`. -/
def scenDisjoint : MultiFileChange :=
  { files := [{ filePath := ("A").data, originalContent := [], modifiedContent := [],
                edits := [mkMF 1 5 [], mkMF 6 10 []] }],
    summary := [], dependencies := [] }

/-- The edit of the whole-trim counterexample: the declared old text
`"a \nb"` differs from the buffer text `"a\nb"` only by per-line
trailing whitespace. -/
def cexTrimEdit : TextEdit :=
  { startLine := 1, endLine := 2, startColumn := none, endColumn := none,
    oldText := ("a \nb").data, newText := ("X").data, context := none }

/-- The lines of the brace counterexample: the first line closes before
it opens, so its net count never goes positive. -/
def cexBraceLines : List Str :=
  [("\x7d \x7b").data, ("\x7b").data, ("x").data, ("\x7d").data]

/-- The three-line block of the spec's brace-scanning example. -/
def exBraceLines : List Str :=
  [("function f() \x7b").data, ("  x();").data, ("\x7d").data]

/-- A page state holding one staged pending edit. -/
def cexPageState : PageState :=
  { selectedFile := some ("a.ts").data, fileContent := ("a").data,
    pendingEdits := [{ id := ("e1").data, fileName := ("a.ts").data, description := [],
                       startLine := 1, endLine := 1, startColumn := 1, endColumn := 999,
                       oldCode := ("a").data, newCode := ("X").data }] }

/-- An edit whose declared old text does not occur at its range, for the
mismatch-path witness. -/
def wMismatchEdit : TextEdit :=
  { startLine := 1, endLine := 1, startColumn := none, endColumn := none,
    oldText := ("b").data, newText := ("X").data, context := none }

/-! ## Lemmas about the stable descending sort -/

theorem perm_insertDescBy {α : Type} (key : α → Int) (x : α) (l : List α) :
    List.Perm (insertDescBy key x l) (x :: l) := by
  induction l with
  | nil => exact List.Perm.refl _
  | cons y ys ih =>
    simp only [insertDescBy]
    split
    · exact (ih.cons y).trans (List.Perm.swap x y ys)
    · exact List.Perm.refl _

theorem perm_sortDescBy {α : Type} (key : α → Int) (l : List α) :
    List.Perm (sortDescBy key l) l := by
  induction l with
  | nil => exact List.Perm.refl _
  | cons x xs ih =>
    exact (perm_insertDescBy key x (sortDescBy key xs)).trans (ih.cons x)

theorem sorted_insertDescBy {α : Type} (key : α → Int) (x : α) (l : List α)
    (h : l.Sorted fun a b => key b ≤ key a) :
    (insertDescBy key x l).Sorted fun a b => key b ≤ key a := by
  induction l with
  | nil => simp [insertDescBy]
  | cons y ys ih =>
    rw [List.sorted_cons] at h
    simp only [insertDescBy]
    split
    · rename_i hlt
      rw [List.sorted_cons]
      refine ⟨?_, ih h.2⟩
      intro b hb
      rcases List.mem_cons.mp ((perm_insertDescBy key x ys).mem_iff.mp hb) with hb | hb
      · subst hb; exact le_of_lt hlt
      · exact h.1 b hb
    · rename_i hnlt
      rw [List.sorted_cons]
      refine ⟨?_, List.sorted_cons.mpr h⟩
      intro b hb
      rcases List.mem_cons.mp hb with hb | hb
      · subst hb; exact le_of_not_lt hnlt
      · exact (h.1 b hb).trans (le_of_not_lt hnlt)

theorem sorted_sortDescBy {α : Type} (key : α → Int) (l : List α) :
    (sortDescBy key l).Sorted fun a b => key b ≤ key a := by
  induction l with
  | nil => simp [sortDescBy]
  | cons x xs ih => exact sorted_insertDescBy key x _ ih

theorem sortDescBy_eq_of_perm {α : Type} (key : α → Int) {l₁ l₂ : List α}
    (hp : List.Perm l₁ l₂) (hne : l₁.Pairwise fun a b => key a ≠ key b) :
    sortDescBy key l₁ = sortDescBy key l₂ := by
  haveI : IsAntisymm α (fun a b => key b < key a) :=
    ⟨fun a b h1 h2 => absurd (h1.trans h2) (lt_irrefl _)⟩
  have hperm : List.Perm (sortDescBy key l₁) (sortDescBy key l₂) :=
    (perm_sortDescBy key l₁).trans (hp.trans (perm_sortDescBy key l₂).symm)
  have hsymm : ∀ {a b : α}, key a ≠ key b → key b ≠ key a := fun h => h.symm
  have hne₁ : (sortDescBy key l₁).Pairwise fun a b => key a ≠ key b :=
    ((perm_sortDescBy key l₁).pairwise_iff hsymm).mpr hne
  have hne₂ : (sortDescBy key l₂).Pairwise fun a b => key a ≠ key b :=
    (hperm.pairwise_iff hsymm).mp hne₁
  have hstrict : ∀ (l : List α), (l.Sorted fun a b => key b ≤ key a) →
      (l.Pairwise fun a b => key a ≠ key b) →
      l.Sorted fun a b => key b < key a := by
    intro l hs hn
    exact (hs.and hn).imp fun h => lt_of_le_of_ne h.1 h.2.symm
  exact List.eq_of_perm_of_sorted hperm
    (hstrict _ (sorted_sortDescBy key l₁) hne₁)
    (hstrict _ (sorted_sortDescBy key l₂) hne₂)

theorem pairwise_startLine_ne {edits : List MFEdit}
    (hwf : ∀ e ∈ edits, e.startLine ≤ e.endLine)
    (hov : edits.Pairwise fun a b => rangesOverlap (editRange a) (editRange b) = false) :
    edits.Pairwise fun a b => a.startLine ≠ b.startLine := by
  refine hov.imp_of_mem ?_
  intro a b ha hb h heq
  have hwb := hwf b hb
  simp only [rangesOverlap, editRange, Bool.or_eq_false_iff, Bool.and_eq_false_iff,
    decide_eq_false_iff_not, not_le, ge_iff_le] at h
  omega


/-- C1: the Applier sorts the batch by startLine descending and applies
in that order; consequently, for every buffer and every batch of edits
with well-formed, pairwise non-overlapping line ranges, the result of
`MultiFileManager.applyEdits` is the same for every permutation of the
input edit array. -/
theorem applyEdits_order_invariant :
    ∀ (content : Str) (edits edits' : List MFEdit),
      List.Perm edits edits' →
      (∀ e ∈ edits, e.startLine ≤ e.endLine) →
      (edits.Pairwise fun a b => rangesOverlap (editRange a) (editRange b) = false) →
      ((sortDescBy (fun e => e.startLine) edits).Sorted fun a b => b.startLine ≤ a.startLine)
      ∧ applyEdits content edits = applyEdits content edits' := by
  intro content edits edits' hp hwf hov
  refine ⟨sorted_sortDescBy _ _, ?_⟩
  unfold applyEdits
  rw [sortDescBy_eq_of_perm _ hp (pairwise_startLine_ne hwf hov)]

/-- Witness for C1: the spec's two-edit scenario, in both input orders. -/
theorem applyEdits_order_invariant_witness :
    applyEdits ("a\nb\nc").data [mkMF 1 1 ("X").data, mkMF 3 3 ("Z").data] =
      applyEdits ("a\nb\nc").data [mkMF 3 3 ("Z").data, mkMF 1 1 ("X").data]
    ∧ applyEdits ("a\nb\nc").data [mkMF 1 1 ("X").data, mkMF 3 3 ("Z").data] = ("X\nb\nZ").data := by
  refine ⟨(applyEdits_order_invariant ("a\nb\nc").data
    [mkMF 1 1 ("X").data, mkMF 3 3 ("Z").data]
    [mkMF 3 3 ("Z").data, mkMF 1 1 ("X").data]
    (List.Perm.swap (mkMF 3 3 ("Z").data) (mkMF 1 1 ("X").data) [])
    (by decide) (by decide)).2, by decide⟩

/-! ## Lemmas for the oldCode-independence of the multi-file applier -/

theorem insertDescBy_forall₂ {a b : MFEdit} (hab : AgreesExceptAdvisory a b)
    {l₁ l₂ : List MFEdit} (h : List.Forall₂ AgreesExceptAdvisory l₁ l₂) :
    List.Forall₂ AgreesExceptAdvisory
      (insertDescBy (fun e => e.startLine) a l₁)
      (insertDescBy (fun e => e.startLine) b l₂) := by
  induction h with
  | nil => exact .cons hab .nil
  | @cons x y xs ys hxy htail ih =>
    simp only [insertDescBy, hab.2.1, hxy.2.1]
    split
    · exact .cons hxy ih
    · exact .cons hab (.cons hxy htail)

theorem sortDescBy_forall₂ {l₁ l₂ : List MFEdit}
    (h : List.Forall₂ AgreesExceptAdvisory l₁ l₂) :
    List.Forall₂ AgreesExceptAdvisory
      (sortDescBy (fun e => e.startLine) l₁) (sortDescBy (fun e => e.startLine) l₂) := by
  induction h with
  | nil => exact .nil
  | cons hxy htail ih => exact insertDescBy_forall₂ hxy ih

theorem splice_foldl_forall₂ {s₁ s₂ : List MFEdit}
    (h : List.Forall₂ AgreesExceptAdvisory s₁ s₂) :
    ∀ ls : List Str,
      s₁.foldl (fun ls e =>
        jsSplice ls (e.startLine - 1) (e.endLine - e.startLine + 1) (splitLines e.newCode)) ls =
      s₂.foldl (fun ls e =>
        jsSplice ls (e.startLine - 1) (e.endLine - e.startLine + 1) (splitLines e.newCode)) ls := by
  induction h with
  | nil => intro ls; rfl
  | @cons x y xs ys hxy htail ih =>
    intro ls
    simp only [List.foldl_cons, hxy.2.1, hxy.2.2.1, hxy.2.2.2]
    exact ih _

/-- C10: `MultiFileManager.applyEdits` performs no old-text verification:
two edit lists that agree on `startLine`, `endLine` and `newCode` (and
identity) of each edit but differ arbitrarily in `oldCode` and
`description` produce the same output on every original content, and no
per-edit failure is reported (the return type carries none). -/
theorem applyEdits_ignores_oldCode :
    ∀ (content : Str) (l₁ l₂ : List MFEdit),
      List.Forall₂ AgreesExceptAdvisory l₁ l₂ →
      applyEdits content l₁ = applyEdits content l₂ := by
  intro content l₁ l₂ h
  show joinLines _ = joinLines _
  rw [splice_foldl_forall₂ (sortDescBy_forall₂ h)]

/-- Witness for C10: one edit with matching old code and the same edit
with wrong old code and a different description produce the same
result. -/
theorem applyEdits_ignores_oldCode_witness :
    applyEdits ("a\nb").data
        [{ id := [], startLine := 1, endLine := 1, oldCode := ("a").data,
           newCode := ("X").data, description := [] }] =
      applyEdits ("a\nb").data
        [{ id := [], startLine := 1, endLine := 1, oldCode := ("totally wrong").data,
           newCode := ("X").data, description := ("d").data }]
    ∧ ("a").data ≠ ("totally wrong").data :=
  ⟨applyEdits_ignores_oldCode ("a\nb").data _ _ (.cons (by decide) .nil), by decide⟩

/-! ## Lemmas for the conflict validator -/

theorem ordPairs_forall {α : Type} {P : α → α → Prop} :
    ∀ l : List α, (∀ p ∈ ordPairs l, P p.1 p.2) ↔ l.Pairwise P := by
  intro l
  induction l with
  | nil => simp [ordPairs]
  | cons x xs ih =>
    simp only [ordPairs, List.mem_append, List.mem_map, List.pairwise_cons]
    constructor
    · intro h
      exact ⟨fun y hy => h (x, y) (Or.inl ⟨y, hy, rfl⟩), ih.mp fun p hp => h p (Or.inr hp)⟩
    · rintro ⟨h1, h2⟩ p hp
      rcases hp with ⟨y, hy, heq⟩ | hp
      · subst heq; exact h1 y hy
      · exact (ih.mpr h2) p hp

theorem length_filterMap_guard {α β : Type} (p : α → Bool) (f : α → β) :
    ∀ l : List α,
      (l.filterMap fun x => if p x then some (f x) else none).length = l.countP p := by
  intro l
  induction l with
  | nil => rfl
  | cons x xs ih =>
    by_cases h : p x <;> simp [List.filterMap_cons, h, ih, List.countP_cons]

theorem fileConflicts_length (fileEdit : FileEdit) :
    (fileConflicts fileEdit).length =
      (ordPairs (fileEdit.edits.map editRange)).countP fun p => rangesOverlap p.1 p.2 := by
  simp only [fileConflicts]
  exact length_filterMap_guard _ _ _

theorem validateChanges_errors_length (changes : MultiFileChange) :
    (validateChanges changes).errors.length =
      (changes.files.map fun fe =>
        (ordPairs (fe.edits.map editRange)).countP fun p => rangesOverlap p.1 p.2).sum := by
  simp only [validateChanges, List.length_flatten, List.map_map, Function.comp_def,
    fileConflicts_length]

theorem rangesOverlap_iff_startWithin {r1 r2 : LineRange}
    (h1 : r1.start ≤ r1.stop) (h2 : r2.start ≤ r2.stop) :
    rangesOverlap r1 r2 = true ↔ StartWithin r1 r2 := by
  simp only [rangesOverlap, StartWithin, Bool.or_eq_true, Bool.and_eq_true,
    decide_eq_true_eq, ge_iff_le]
  omega

/-- C6: `validateChanges` accepts a changeset exactly when no file holds
a pair of edits whose inclusive, well-formed line ranges overlap (one
range's start inside the other's span); each overlapping pair yields one
error; file `A` with edits `[1,3]` and `[2,5]` yields `valid: false` with
exactly the one error naming the file and both ranges, while `[1,5]` and
`[6,10]` yield no conflict. -/
theorem validateChanges_spec :
    (∀ changes : MultiFileChange,
      (∀ fe ∈ changes.files, ∀ e ∈ fe.edits, e.startLine ≤ e.endLine) →
      (((validateChanges changes).valid = true) ↔
        ∀ fe ∈ changes.files,
          (fe.edits.map editRange).Pairwise fun r1 r2 => ¬ StartWithin r1 r2))
    ∧ (∀ changes : MultiFileChange,
        (validateChanges changes).errors.length =
          (changes.files.map fun fe =>
            (ordPairs (fe.edits.map editRange)).countP fun p => rangesOverlap p.1 p.2).sum)
    ∧ (validateChanges scenOverlap).valid = false
    ∧ (validateChanges scenOverlap).errors =
        [("Conflicting edits in A: lines 1-3 and 2-5").data]
    ∧ (validateChanges scenDisjoint).valid = true
    ∧ (validateChanges scenDisjoint).errors = [] := by
  refine ⟨?_, validateChanges_errors_length, by decide, by decide, by decide, by decide⟩
  intro changes hwf
  have hvalid : (validateChanges changes).valid =
      ((validateChanges changes).errors.length == 0) := rfl
  rw [hvalid, beq_iff_eq, validateChanges_errors_length, List.sum_eq_zero_iff]
  constructor
  · intro h fe hfe
    have hcount := h _ (List.mem_map_of_mem _ hfe)
    rw [List.countP_eq_zero] at hcount
    have hpw : (fe.edits.map editRange).Pairwise fun r1 r2 => ¬ (rangesOverlap r1 r2 = true) :=
      (ordPairs_forall _).mp fun p hp => hcount p hp
    refine hpw.imp_of_mem ?_
    intro r1 r2 h1 h2 hno hsw
    rcases List.mem_map.mp h1 with ⟨e1, he1, heq1⟩
    rcases List.mem_map.mp h2 with ⟨e2, he2, heq2⟩
    have hr1 : r1.start ≤ r1.stop := by
      subst heq1; exact hwf fe hfe e1 he1
    have hr2 : r2.start ≤ r2.stop := by
      subst heq2; exact hwf fe hfe e2 he2
    exact hno ((rangesOverlap_iff_startWithin hr1 hr2).mpr hsw)
  · intro h x hx
    rcases List.mem_map.mp hx with ⟨fe, hfe, heq⟩
    subst heq
    rw [List.countP_eq_zero]
    have hpw : (fe.edits.map editRange).Pairwise fun r1 r2 => ¬ (rangesOverlap r1 r2 = true) := by
      refine (h fe hfe).imp_of_mem ?_
      intro r1 r2 h1 h2 hnsw hov
      rcases List.mem_map.mp h1 with ⟨e1, he1, heq1⟩
      rcases List.mem_map.mp h2 with ⟨e2, he2, heq2⟩
      have hr1 : r1.start ≤ r1.stop := by
        subst heq1; exact hwf fe hfe e1 he1
      have hr2 : r2.start ≤ r2.stop := by
        subst heq2; exact hwf fe hfe e2 he2
      exact hnsw ((rangesOverlap_iff_startWithin hr1 hr2).mp hov)
    exact fun p hp => (ordPairs_forall _).mpr hpw p hp

/-- Witness for C6: the overlap scenario instantiates the equivalence. -/
theorem validateChanges_spec_witness :
    ((validateChanges scenOverlap).valid = true ↔
      ∀ fe ∈ scenOverlap.files,
        (fe.edits.map editRange).Pairwise fun r1 r2 => ¬ StartWithin r1 r2) :=
  validateChanges_spec.1 scenOverlap (by decide)

/-! ## Lemmas for the per-edit Monaco applier -/

theorem applyEditsMonaco_count_aux :
    ∀ (l : List TextEdit) (st : List Str × Nat × Nat),
      (l.foldl (fun st e =>
        let r := applyEdit st.1 e
        if r.2 then (r.1, st.2.1 + 1, st.2.2) else (r.1, st.2.1, st.2.2 + 1)) st).2.1 +
      (l.foldl (fun st e =>
        let r := applyEdit st.1 e
        if r.2 then (r.1, st.2.1 + 1, st.2.2) else (r.1, st.2.1, st.2.2 + 1)) st).2.2 =
      st.2.1 + st.2.2 + l.length := by
  intro l
  induction l with
  | nil => intro st; simp
  | cons x xs ih =>
    intro st
    simp only [List.foldl_cons]
    rw [ih]
    by_cases h : (applyEdit st.1 x).2 <;> simp [h] <;> omega

theorem applyEditsMonaco_count (lines : List Str) (edits : List TextEdit) :
    (applyEditsMonaco lines edits).2.1 + (applyEditsMonaco lines edits).2.2 = edits.length := by
  have h := applyEditsMonaco_count_aux (sortDescBy (fun e => e.startLine) edits) (lines, 0, 0)
  have hl := (perm_sortDescBy (fun e : TextEdit => e.startLine) edits).length_eq
  simpa [applyEditsMonaco, hl] using h

/-- C2 (amended): when `oldText` is present (non-empty), `applyEdit`
compares it to the text of the declared range by whole-string trim (not
per line); a mismatch makes that single edit fail with the buffer
unchanged, and `applyEditsMonaco` tallies every edit as success or
failure, so sibling edits proceed and the batch applier never throws. -/
theorem applyEdit_mismatch_spec :
    ∀ (lines : List Str) (edits : List TextEdit) (edit : TextEdit),
      (edit.oldText ≠ [] →
        jsTrim (extractedText lines edit) ≠ jsTrim edit.oldText →
        applyEdit lines edit = (lines, false))
      ∧ (applyEditsMonaco lines edits).2.1 + (applyEditsMonaco lines edits).2.2 =
          edits.length := by
  intro lines edits edit
  refine ⟨?_, applyEditsMonaco_count lines edits⟩
  intro h1 h2
  unfold applyEdit
  rw [if_pos ⟨h1, h2⟩]

/-- Witness for C2: a mismatching edit fails without changing the
buffer, and a one-edit batch tallies one outcome. -/
theorem applyEdit_mismatch_spec_witness :
    applyEdit (splitLines ("a").data) wMismatchEdit = (splitLines ("a").data, false)
    ∧ (applyEditsMonaco (splitLines ("a").data) [wMismatchEdit]).2.1 +
        (applyEditsMonaco (splitLines ("a").data) [wMismatchEdit]).2.2 = 1 :=
  ⟨(applyEdit_mismatch_spec (splitLines ("a").data) [wMismatchEdit] wMismatchEdit).1
      (by decide) (by decide),
   (applyEdit_mismatch_spec (splitLines ("a").data) [wMismatchEdit] wMismatchEdit).2⟩

/-- Counterexample for C2 as stated: on the buffer `"a\nb"`, the edit's
old text `"a \nb"` is equal to the extracted text per-line after
trimming, yet `applyEdit` reports the edit failed, because the source
compares the trim of the whole strings, not line by line. -/
theorem applyEdit_per_line_counterexample :
    PerLineTrimEq (extractedText (splitLines ("a\nb").data) cexTrimEdit) cexTrimEdit.oldText
    ∧ applyEdit (splitLines ("a\nb").data) cexTrimEdit = (splitLines ("a\nb").data, false) := by
  constructor
  · constructor
    · decide
    · decide
  · decide

/-- C7 (code bug): accepting a single pending edit only removes the
registry entry; the buffer is never modified, and `handleAcceptEdit` is
the same function as `handleRejectEdit`, although the accepted edit was
supposed to be applied. -/
theorem handleAcceptEdit_no_apply :
    ∀ (editId : Str) (st : PageState),
      (handleAcceptEdit editId st).fileContent = st.fileContent
      ∧ handleAcceptEdit editId st = handleRejectEdit editId st
      ∧ (handleAcceptEdit ("e1").data cexPageState).pendingEdits = [] := by
  intro editId st
  exact ⟨rfl, rfl, by decide⟩

/-- Counterexample for C8 as stated: selecting another file leaves the
staged pending edit in the registry, which therefore is not empty. -/
theorem handleFileSelect_counterexample :
    (handleFileSelect ("b.ts").data true ("bbb").data cexPageState).pendingEdits ≠ [] := by
  decide

/-- C8 (amended): switching the selected file updates the selection and
the buffer but leaves the pending-edit registry exactly as it was; the
registry is not cleared on file switch. -/
theorem handleFileSelect_frame :
    ∀ (path : Str) (handleFound : Bool) (diskContent : Str) (st : PageState),
      (handleFileSelect path handleFound diskContent st).pendingEdits = st.pendingEdits
      ∧ (handleFileSelect path handleFound diskContent st).selectedFile = some path := by
  intro path handleFound diskContent st
  cases handleFound <;> exact ⟨rfl, rfl⟩

/-! ## Lemmas for the decoders' line-range invariant -/

theorem splitLines_ne_nil : ∀ s : Str, splitLines s ≠ [] := by
  intro s
  cases s with
  | nil => simp [splitLines]
  | cons c cs =>
    simp only [splitLines]
    split
    · simp
    · cases h : splitLines cs <;> simp

theorem splitLines_length_pos (s : Str) : 0 < (splitLines s).length :=
  List.length_pos.mpr (splitLines_ne_nil s)

/-- Counterexample for C3 as stated: a unified diff with a zero-count
(insertion) hunk decodes to an edit with `endLine < startLine`. -/
theorem parseUnifiedDiff_insertion_counterexample :
    (parseUnifiedDiff (("@@ -5,0 +5,1 @@\n+x").data) []).map
        (fun e => (e.startLine, e.endLine)) = [((5 : Int), (4 : Int))]
    ∧ ¬ ((5 : Int) ≤ (4 : Int)) := by
  exact ⟨by decide, by decide⟩

/-- C3 (amended): every edit from `parseSearchReplace` satisfies
`startLine ≤ endLine`; edits from `parseUnifiedDiff` satisfy
`startLine - 1 ≤ endLine`, with equality of the defect exactly for
zero-count hunks; and `diffToPendingEdits` yields `startLine ≤ endLine`
whenever every hunk's old-line count is at least one. -/
theorem decoder_range_invariant :
    (∀ (text content : Str), ∀ e ∈ parseSearchReplace text content,
        e.startLine ≤ e.endLine)
    ∧ (∀ (diffText content : Str), ∀ e ∈ parseUnifiedDiff diffText content,
        e.startLine - 1 ≤ e.endLine)
    ∧ (∀ (now : Nat) (diffs : List UnifiedDiff),
        (∀ dd ∈ diffs, ∀ h ∈ dd.hunks, 1 ≤ h.oldLines) →
        ∀ e ∈ diffToPendingEdits now diffs, e.startLine ≤ e.endLine) := by
  refine ⟨?_, ?_, ?_⟩
  · intro text content e he
    simp only [parseSearchReplace, List.mem_filterMap] at he
    obtain ⟨b, hb, hbe⟩ := he
    split at hbe
    · rename_i i hi
      cases hbe
      have hpos := splitLines_length_pos (jsTrim b.1)
      simp only
      omega
    · exact absurd hbe (by simp)
  · intro diffText content e he
    simp only [parseUnifiedDiff, List.mem_filterMap] at he
    obtain ⟨hd, hhd, hbe⟩ := he
    split at hbe
    · cases hbe
      simp only
      have h1 : (0 : Int) ≤ (hd.1.oldStart : Int) := Int.natCast_nonneg _
      have h2 : (0 : Int) ≤ ((hd.1.oldCount.getD 1 : Nat) : Int) := Int.natCast_nonneg _
      omega
    · exact absurd hbe (by simp)
  · intro now diffs hcount e he
    simp only [diffToPendingEdits, List.mem_flatMap, List.mem_map] at he
    obtain ⟨dd, hdd, p, hp, hpe⟩ := he
    obtain ⟨i, hk⟩ := p
    obtain ⟨hlt, hx⟩ := List.mem_enum hp
    have hmem : hk ∈ dd.hunks := by
      rw [hx]; exact List.getElem_mem _
    have h1 := hcount dd hdd hk hmem
    cases hpe
    simp only
    omega

/-- Witness for C3: the three parts instantiated on concrete decoder
inputs. -/
theorem decoder_range_invariant_witness :
    ({ startLine := 1, endLine := 1, startColumn := none, endColumn := none,
       oldText := ("a").data, newText := ("b").data, context := none : TextEdit }.startLine ≤
     { startLine := 1, endLine := 1, startColumn := none, endColumn := none,
       oldText := ("a").data, newText := ("b").data, context := none : TextEdit }.endLine)
    ∧ ({ startLine := 5, endLine := 4, startColumn := none, endColumn := none,
         oldText := [], newText := ("x").data, context := none : TextEdit }.startLine - 1 ≤ 4)
    ∧ ({ id := ("-2-0-0").data, fileName := [], description := [],
         startLine := 2, endLine := 2, startColumn := 1, endColumn := 999,
         oldCode := ("old").data, newCode := ("new").data : PendingEdit }.startLine ≤ 2) := by
  refine ⟨?_, ?_, ?_⟩
  · exact decoder_range_invariant.1
      (("<<<<<<< SEARCH\na\n=======\nb\n>>>>>>> REPLACE").data) (("a").data) _ (by decide)
  · exact decoder_range_invariant.2.1 (("@@ -5,0 +5,1 @@\n+x").data) [] _ (by decide)
  · exact decoder_range_invariant.2.2 0
      [{ fileName := [], description := [],
         hunks := [{ oldStart := 2, oldLines := 1, newStart := 2, newLines := 1,
                     lines := [("-old").data, ("+new").data] }] }]
      (by decide) _ (by decide)

/-! ## Lemmas for the search/replace window scan -/

theorem windowOk_iff (lines searchLines : List Str) (i : Nat) :
    windowOk lines searchLines i = true ↔ WindowMatches lines searchLines i := by
  simp only [windowOk, List.all_eq_true, List.mem_range, Bool.and_eq_true,
    decide_eq_true_eq, WindowMatches]

theorem findStartLineAux_spec (lines searchLines : List Str) :
    ∀ (fuel i : Nat), lines.length ≤ fuel + i →
      ((∀ j, findStartLineAux lines searchLines fuel i = some j ↔
        (i ≤ j ∧ j < lines.length ∧ windowOk lines searchLines j = true ∧
          ∀ k, i ≤ k → k < j → windowOk lines searchLines k = false))
      ∧ (findStartLineAux lines searchLines fuel i = none ↔
          ∀ k, i ≤ k → k < lines.length → windowOk lines searchLines k = false)) := by
  intro fuel
  induction fuel with
  | zero =>
    intro i hle
    refine ⟨fun j => ?_, ?_⟩
    · simp only [findStartLineAux]
      constructor
      · intro h; exact absurd h (by simp)
      · rintro ⟨h1, h2, _⟩; omega
    · simp only [findStartLineAux, true_iff]
      intro k hk1 hk2; omega
  | succ fuel ih =>
    intro i hle
    by_cases hi : i < lines.length
    · by_cases hok : windowOk lines searchLines i = true
      · refine ⟨fun j => ?_, ?_⟩
        · simp only [findStartLineAux, if_pos hi, if_pos hok, Option.some_inj]
          constructor
          · rintro rfl
            exact ⟨le_refl _, hi, hok, fun k hk1 hk2 => by omega⟩
          · rintro ⟨h1, h2, h3, h4⟩
            by_contra hne
            have hij : i < j := lt_of_le_of_ne h1 hne
            have hfalse := h4 i (le_refl i) hij
            rw [hok] at hfalse
            exact absurd hfalse (by simp)
        · simp only [findStartLineAux, if_pos hi, if_pos hok]
          constructor
          · intro h; exact absurd h (by simp)
          · intro h
            have := h i (le_refl i) hi
            rw [hok] at this
            exact absurd this (by simp)
      · have hoks : windowOk lines searchLines i = false := by
          cases hw : windowOk lines searchLines i
          · rfl
          · exact absurd hw hok
        obtain ⟨ih1, ih2⟩ := ih (i + 1) (by omega)
        refine ⟨fun j => ?_, ?_⟩
        · simp only [findStartLineAux, if_pos hi, if_neg hok]
          rw [ih1 j]
          constructor
          · rintro ⟨h1, h2, h3, h4⟩
            refine ⟨by omega, h2, h3, ?_⟩
            intro k hk1 hk2
            rcases Nat.eq_or_lt_of_le hk1 with heq | hlt
            · rw [← heq]; exact hoks
            · exact h4 k hlt hk2
          · rintro ⟨h1, h2, h3, h4⟩
            have hij : i ≠ j := by
              intro heq
              rw [← heq] at h3
              rw [h3] at hoks
              exact absurd hoks (by simp)
            exact ⟨by omega, h2, h3, fun k hk1 hk2 => h4 k (by omega) hk2⟩
        · simp only [findStartLineAux, if_pos hi, if_neg hok]
          rw [ih2]
          constructor
          · intro h k hk1 hk2
            rcases Nat.eq_or_lt_of_le hk1 with heq | hlt
            · rw [← heq]; exact hoks
            · exact h k hlt hk2
          · intro h k hk1 hk2
            exact h k (by omega) hk2
    · refine ⟨fun j => ?_, ?_⟩
      · simp only [findStartLineAux, if_neg hi]
        constructor
        · intro h; exact absurd h (by simp)
        · rintro ⟨h1, h2, _⟩; omega
      · simp only [findStartLineAux, if_neg hi, true_iff]
        intro k hk1 hk2; omega

theorem findStartLine_eq (lines searchLines : List Str) :
    findStartLine lines searchLines =
      if h : ∃ i, i < lines.length ∧ WindowMatches lines searchLines i
      then some (Nat.find h) else none := by
  obtain ⟨h1, h2⟩ := findStartLineAux_spec lines searchLines lines.length 0 (by omega)
  by_cases h : ∃ i, i < lines.length ∧ WindowMatches lines searchLines i
  · rw [dif_pos h]
    have hfind := Nat.find_spec h
    apply (h1 (Nat.find h)).mpr
    refine ⟨Nat.zero_le _, hfind.1, (windowOk_iff _ _ _).mpr hfind.2, ?_⟩
    intro k _ hk
    have hmin := Nat.find_min h hk
    have hklen : k < lines.length := lt_trans hk hfind.1
    cases hw : windowOk lines searchLines k
    · rfl
    · exact absurd ⟨hklen, (windowOk_iff _ _ _).mp hw⟩ hmin
  · rw [dif_neg h]
    apply h2.mpr
    intro k _ hk
    cases hw : windowOk lines searchLines k
    · rfl
    · exact absurd ⟨hk, (windowOk_iff _ _ _).mp hw⟩ (fun hc => h ⟨k, hc⟩)

/-- C5: `parseSearchReplace` decodes each block exactly as the spec
describes the window scan: the first (lowest) position where every
search line equals the corresponding content line after trimming
determines `startLine`, `endLine` is `startLine` plus the number of
search lines minus one, and a block with no matching window contributes
zero edits while no error is raised (the function is total). -/
theorem parseSearchReplace_window_spec :
    ∀ (text content : Str),
      parseSearchReplace text content =
        (srBlocks text).filterMap (specBlockDecode (splitLines content)) := by
  intro text content
  unfold parseSearchReplace specBlockDecode
  apply List.filterMap_congr
  intro b _
  rw [findStartLine_eq]
  by_cases h : ∃ i, i < (splitLines content).length ∧
      WindowMatches (splitLines content) (splitLines (jsTrim b.1)) i
  · rw [dif_pos h, dif_pos h]
  · rw [dif_neg h, dif_neg h]

/-! ## Lemmas for the search/replace round trip -/

theorem dropLit_append (p r : Str) : dropLit p (p ++ r) = some r := by
  induction p with
  | nil => rfl
  | cons c cs ih => simp [dropLit, ih]

theorem findSub_append_self (pat rest : Str) : findSub pat (pat ++ rest) = some 0 := by
  cases pat with
  | nil =>
    cases rest with
    | nil => rfl
    | cons c cs => simp [findSub, dropLit]
  | cons p ps =>
    show findSub (p :: ps) (p :: (ps ++ rest)) = some 0
    simp [findSub, dropLit, dropLit_append]

theorem srBlocksAux_nil (fuel : Nat) : srBlocksAux fuel [] = [] := by
  cases fuel with
  | zero => rfl
  | succ n => simp [srBlocksAux, srNext, findSub, srHeader]

theorem srBlocksAux_single (fuel : Nat) (s g1 g2 : Str)
    (h : srNext s = some (g1, g2, [])) (hf : 1 ≤ fuel) :
    srBlocksAux fuel s = [(g1, g2)] := by
  cases fuel with
  | zero => omega
  | succ n => simp [srBlocksAux, h, srBlocksAux_nil]

theorem srBody_encode (S R : Str)
    (hd : findSub srDelim (S ++ srDelim ++ R ++ srFooter) = some S.length)
    (hf : findSub srFooter (R ++ srFooter) = some R.length) :
    srBody (S ++ srDelim ++ R ++ srFooter) = some (S, R, []) := by
  have hassoc : S ++ srDelim ++ R ++ srFooter = (S ++ srDelim) ++ (R ++ srFooter) := by
    simp [List.append_assoc]
  have hdrop : (S ++ srDelim ++ R ++ srFooter).drop (S.length + srDelim.length) =
      R ++ srFooter := by
    rw [hassoc, ← List.length_append S srDelim]
    exact List.drop_left _ _
  have htake : (S ++ srDelim ++ R ++ srFooter).take S.length = S := by
    rw [hassoc, List.append_assoc]
    exact List.take_left _ _
  have htake2 : (R ++ srFooter).take R.length = R := List.take_left _ _
  have hdrop2 : (R ++ srFooter).drop (R.length + srFooter.length) = [] := by
    rw [← List.length_append R srFooter]
    exact List.drop_length _
  unfold srBody
  rw [hd]
  dsimp only
  rw [hdrop, hf]
  dsimp only
  rw [htake, htake2, hdrop2]

theorem srBlocks_encode (S R : Str)
    (hd : findSub srDelim (S ++ srDelim ++ R ++ srFooter) = some S.length)
    (hf : findSub srFooter (R ++ srFooter) = some R.length) :
    srBlocks (encodeSR S R) = [(S, R)] := by
  have hnext : srNext (encodeSR S R) = some (S, R, []) := by
    unfold srNext encodeSR
    have hh : findSub srHeader
        (srHeader ++ (S ++ srDelim ++ R ++ srFooter)) = some 0 :=
      findSub_append_self _ _
    have hshape : srHeader ++ S ++ srDelim ++ R ++ srFooter =
        srHeader ++ (S ++ srDelim ++ R ++ srFooter) := by
      simp [List.append_assoc]
    rw [hshape, hh]
    dsimp only
    have : (srHeader ++ (S ++ srDelim ++ R ++ srFooter)).drop (0 + srHeader.length) =
        S ++ srDelim ++ R ++ srFooter := by
      rw [Nat.zero_add]
      exact List.drop_left _ _
    rw [this]
    exact srBody_encode S R hd hf
  apply srBlocksAux_single _ _ _ _ hnext
  have hlen : (encodeSR S R).length =
      srHeader.length + (S.length + (srDelim.length + (R.length + srFooter.length))) := by
    simp [encodeSR, List.length_append]
  have hhl : srHeader.length = 15 := rfl
  omega

/-- Counterexample for C4 as stated: encoding the replacement of `"a"`
by `" X "` and decoding it against the buffer `"a"` yields an edit whose
`newText` is the trimmed `"X"`, not the original replacement text. -/
theorem searchReplace_roundtrip_counterexample :
    (parseSearchReplace (encodeSR ("a").data (" X ").data) ("a").data).map
        (fun e => e.newText) = [("X").data]
    ∧ ("X").data ≠ (" X ").data := by
  exact ⟨by decide, by decide⟩

/-- C4 (amended): encoding `(S → R)` as a search/replace block and
decoding it against a buffer that contains the lines of `S` yields
exactly one edit: its `newText` is `R` trimmed of surrounding whitespace
(not `R` itself), its `oldText` is `S`, and its range is the first
(lowest) window of the buffer matching `S` per trimmed lines — a window
exists at `S`'s own span, so the located start is at or above it.  The
delimiter hypotheses state that `S` and `R` do not contain (or recreate
at a seam) the block delimiters; trim-stability of `S` keeps its line
structure under the decoder's trim. -/
theorem searchReplace_roundtrip_amended :
    ∀ (S R content : Str) (pre post : List Str),
      jsTrim S = S →
      findSub srDelim (S ++ srDelim ++ R ++ srFooter) = some S.length →
      findSub srFooter (R ++ srFooter) = some R.length →
      splitLines content = pre ++ splitLines S ++ post →
      ∃ i : Nat, i ≤ pre.length ∧
        WindowMatches (splitLines content) (splitLines S) i ∧
        (∀ k < i, ¬ WindowMatches (splitLines content) (splitLines S) k) ∧
        parseSearchReplace (encodeSR S R) content =
          [{ startLine := (i : Int) + 1,
             endLine := ((i : Int) + 1) + ((splitLines S).length : Int) - 1,
             startColumn := none, endColumn := none,
             oldText := S, newText := jsTrim R, context := none }] := by
  intro S R content pre post htrim hd hf hsplit
  have hblocks := srBlocks_encode S R hd hf
  have hsplit' : splitLines content = pre ++ (splitLines S ++ post) := by
    rw [hsplit, List.append_assoc]
  have hwm : WindowMatches (splitLines content) (splitLines S) pre.length := by
    intro j hj
    constructor
    · rw [hsplit']
      simp only [List.length_append]
      omega
    · rw [hsplit']
      rw [List.getD_append_right _ _ _ _ (by omega)]
      have hj' : pre.length + j - pre.length = j := by omega
      rw [hj', List.getD_append _ _ _ _ hj]
  have hlenc : pre.length < (splitLines content).length := by
    rw [hsplit']
    simp only [List.length_append]
    have := splitLines_length_pos S
    omega
  have hex : ∃ i, i < (splitLines content).length ∧
      WindowMatches (splitLines content) (splitLines S) i := ⟨pre.length, hlenc, hwm⟩
  refine ⟨Nat.find hex, Nat.find_le ⟨hlenc, hwm⟩, (Nat.find_spec hex).2, ?_, ?_⟩
  · intro k hk hwmk
    have hklen : k < (splitLines content).length := lt_trans hk (Nat.find_spec hex).1
    exact Nat.find_min hex hk ⟨hklen, hwmk⟩
  · unfold parseSearchReplace
    rw [hblocks, List.filterMap_cons]
    rw [show jsTrim (S, R).1 = S from htrim]
    rw [findStartLine_eq, dif_pos hex]
    simp [List.filterMap_nil]

/-- Witness for C4 (amended): the concrete buffer `"x\na"`, span `"a"`,
replacement `"b"`. -/
theorem searchReplace_roundtrip_amended_witness :
    ∃ i : Nat, i ≤ [("x").data].length ∧
      WindowMatches (splitLines ("x\na").data) (splitLines ("a").data) i ∧
      (∀ k < i, ¬ WindowMatches (splitLines ("x\na").data) (splitLines ("a").data) k) ∧
      parseSearchReplace (encodeSR ("a").data ("b").data) ("x\na").data =
        [{ startLine := (i : Int) + 1,
           endLine := ((i : Int) + 1) + ((splitLines ("a").data).length : Int) - 1,
           startColumn := none, endColumn := none,
           oldText := ("a").data, newText := jsTrim ("b").data, context := none }] :=
  searchReplace_roundtrip_amended ("a").data ("b").data ("x\na").data [("x").data] []
    (by decide) (by decide) (by decide) (by decide)

/-! ## Lemmas for the brace block-end finder -/

theorem segNet_self {lines : List Str} {s : Nat} (h : s < lines.length) :
    segNet lines s s = netBraces (lines.getD s []) := by
  show (((lines.drop s).take (s + 1 - s)).map netBraces).sum = netBraces (lines.getD s [])
  have h1 : s + 1 - s = 1 := by omega
  rw [h1, List.drop_eq_getElem_cons h, List.getD_eq_getElem _ _ h]
  have h2 : List.take 1 (lines[s] :: lines.drop (s + 1)) = [lines[s]] := rfl
  rw [h2]
  simp

theorem segNet_cons {lines : List Str} {i t : Nat} (hit : i ≤ t) (hi : i < lines.length) :
    segNet lines i t = netBraces (lines.getD i []) + segNet lines (i + 1) t := by
  show (((lines.drop i).take (t + 1 - i)).map netBraces).sum =
    netBraces (lines.getD i []) +
      (((lines.drop (i + 1)).take (t + 1 - (i + 1))).map netBraces).sum
  have h1 : t + 1 - i = (t - i) + 1 := by omega
  have h2 : t + 1 - (i + 1) = t - i := by omega
  rw [h1, h2, List.drop_eq_getElem_cons hi, List.take_succ_cons,
    List.getD_eq_getElem _ _ hi]
  simp

theorem seenOpen_split {lines : List Str} {i t : Nat} (hit : i ≤ t) :
    SeenOpen lines i t ↔
      (hasOpenBrace (lines.getD i []) = true ∨ SeenOpen lines (i + 1) t) := by
  constructor
  · rintro ⟨k, hk1, hk2, hk3⟩
    rcases Nat.eq_or_lt_of_le hk2 with heq | hlt
    · left; rw [heq]; exact hk3
    · right; exact ⟨k, hk1, hlt, hk3⟩
  · rintro (h | ⟨k, hk1, hk2, hk3⟩)
    · exact ⟨i, by omega, le_refl i, h⟩
    · exact ⟨k, hk1, by omega, hk3⟩

theorem seenOpen_self {lines : List Str} {i : Nat} :
    SeenOpen lines i i ↔ hasOpenBrace (lines.getD i []) = true := by
  rw [seenOpen_split (le_refl i)]
  constructor
  · rintro (h | ⟨k, hk1, hk2, _⟩)
    · exact h
    · omega
  · exact Or.inl

theorem findBlockEndAux_spec (lines : List Str) :
    ∀ (fuel i : Nat) (c : Int) (f : Bool), lines.length ≤ fuel + i →
      ((∀ t, ¬ AuxQual lines i c f t) → findBlockEndAux lines fuel i c f = lines.length)
      ∧ (∀ t, AuxQual lines i c f t → (∀ u, u < t → ¬ AuxQual lines i c f u) →
          findBlockEndAux lines fuel i c f = t + 1) := by
  intro fuel
  induction fuel with
  | zero =>
    intro i c f hle
    refine ⟨fun _ => rfl, ?_⟩
    intro t ht _
    exact absurd ht (by rintro ⟨h1, h2, _⟩; omega)
  | succ fuel ih =>
    intro i c f hle
    by_cases hi : i < lines.length
    · have hstep : findBlockEndAux lines (fuel + 1) i c f =
          (if ((f || hasOpenBrace (lines.getD i [])) &&
              (c + netBraces (lines.getD i []) == 0)) = true
           then i + 1
           else findBlockEndAux lines fuel (i + 1) (c + netBraces (lines.getD i []))
             (f || hasOpenBrace (lines.getD i []))) := by
        simp only [findBlockEndAux, if_pos hi]
      have hQi : AuxQual lines i c f i ↔
          (((f || hasOpenBrace (lines.getD i [])) &&
            (c + netBraces (lines.getD i []) == 0)) = true) := by
        simp only [AuxQual, segNet_self hi, seenOpen_self, Bool.and_eq_true,
          Bool.or_eq_true, beq_iff_eq]
        constructor
        · rintro ⟨_, _, h3, h4⟩
          exact ⟨by tauto, h3⟩
        · rintro ⟨h1, h2⟩
          exact ⟨le_refl i, hi, h2, by tauto⟩
      have hQstep : ∀ t, i < t →
          (AuxQual lines i c f t ↔
            AuxQual lines (i + 1) (c + netBraces (lines.getD i []))
              (f || hasOpenBrace (lines.getD i [])) t) := by
        intro t hit
        simp only [AuxQual, segNet_cons (le_of_lt hit) hi,
          seenOpen_split (le_of_lt hit), Bool.or_eq_true]
        constructor
        · rintro ⟨h1, h2, h3, h4⟩
          refine ⟨by omega, h2, by linarith [h3], by tauto⟩
        · rintro ⟨h1, h2, h3, h4⟩
          refine ⟨by omega, h2, by linarith [h3], by tauto⟩
      by_cases hcond : (((f || hasOpenBrace (lines.getD i [])) &&
          (c + netBraces (lines.getD i []) == 0)) = true)
      · rw [hstep, if_pos hcond]
        constructor
        · intro hno
          exact absurd (hQi.mpr hcond) (hno i)
        · intro t ht hmin
          have heq : t = i := by
            rcases Nat.lt_or_ge i t with hlt | hge
            · exact absurd (hQi.mpr hcond) (hmin i hlt)
            · have := ht.1; omega
          rw [heq]
      · rw [hstep, if_neg hcond]
        obtain ⟨ih1, ih2⟩ := ih (i + 1) (c + netBraces (lines.getD i []))
          (f || hasOpenBrace (lines.getD i [])) (by omega)
        constructor
        · intro hno
          apply ih1
          intro t hQ
          have hit : i < t := by have := hQ.1; omega
          exact hno t ((hQstep t hit).mpr hQ)
        · intro t ht hmin
          have hti : i < t := by
            rcases Nat.lt_or_ge i t with h | h
            · exact h
            · have heq : t = i := by have := ht.1; omega
              rw [heq] at ht
              exact absurd (hQi.mp ht) hcond
          refine ih2 t ((hQstep t hti).mp ht) ?_
          intro u hu hQu
          have hui : i < u := by have := hQu.1; omega
          exact hmin u hu ((hQstep u hui).mpr hQu)
    · have hstep : findBlockEndAux lines (fuel + 1) i c f = lines.length := by
        simp [findBlockEndAux, hi]
      refine ⟨fun _ => hstep, ?_⟩
      intro t ht _
      exact absurd ht (by rintro ⟨h1, h2, _⟩; omega)

/-- C9 (amended): `findBlockEnd` reports `i + 1` for the first line `i`
at which the running brace count is zero after some scanned line has
contained an opening brace (not necessarily after the count has gone
positive); the spec's three-line example reports `endLine = 3`; and a
scan that reaches end of file reports the total line count without
error. -/
theorem findBlockEnd_spec :
    ∀ (lines : List Str) (s : Nat),
      ((∀ i, ¬ BlockQual lines s i) → findBlockEnd lines s = lines.length)
      ∧ (∀ i, BlockQual lines s i → (∀ k < i, ¬ BlockQual lines s k) →
          findBlockEnd lines s = i + 1)
      ∧ findBlockEnd exBraceLines 0 = 3 := by
  intro lines s
  have hBQ : ∀ t, BlockQual lines s t ↔ AuxQual lines s 0 false t := by
    intro t
    simp [BlockQual, AuxQual]
  obtain ⟨h1, h2⟩ := findBlockEndAux_spec lines lines.length s 0 false (by omega)
  refine ⟨?_, ?_, by decide⟩
  · intro hno
    exact h1 fun t ht => hno t ((hBQ t).mpr ht)
  · intro i hi hmin
    exact h2 i ((hBQ i).mp hi) fun u hu hq => hmin u hu ((hBQ u).mpr hq)

/-- Witness for C9: on the spec's example, line index 2 is the first
qualifying line, so the reported end line is 3. -/
theorem findBlockEnd_spec_witness :
    findBlockEnd exBraceLines 0 = 2 + 1 :=
  (findBlockEnd_spec exBraceLines 0).2.1 2 (by decide) (by decide)

/-- Counterexample for C9 as stated: on lines whose net count never goes
positive before the first zero (the first line is `"\x7d \x7b"`), the
code stops at line 1, while the first line at which the count returns to
zero after having gone positive is line index 3 (so the claim's reading
predicts 4). -/
theorem findBlockEnd_counterexample :
    findBlockEnd cexBraceLines 0 = 1
    ∧ (∀ i < 1, ¬ ClaimBlockQual cexBraceLines 0 i)
    ∧ ClaimBlockQual cexBraceLines 0 3
    ∧ (∀ k < 3, ¬ ClaimBlockQual cexBraceLines 0 k) := by
  exact ⟨by decide, by decide, by decide, by decide⟩

end WebAgent
